import Mathlib

/-!
# Verification of the equity-estimation core of `rl_bot/player.py`

Shallow embedding of the hand evaluator (`Player.eval5`), the best-hand search
(`Player.eval7`), the opponent-reduction heuristic (`best_two_from_three`), the
Monte Carlo equity simulator (`Player.calculate_equity_python`), the equity
cache (`Player.calculate_equity`) and the discard selector
(`Player.get_best_discard`).

Modelling conventions:
* A card token such as `"Ah"` is modelled in parsed form: the rank is the
  integer produced by `RANK_TO_INT` (2..14) and the suit is an index into the
  suit alphabet `"cdhs"` (c=0, d=1, h=2, s=3).
* Python's `random.Random.shuffle` (standard library, outside the repository)
  is modelled as an oracle `Nat → List Card → List Card`: the k-th shuffle call
  made by the bot replaces the current deck by the oracle's output at index k.
  The bot state carries the oracle together with the number of shuffle calls
  already made, which is exactly the information the simulator consumes.
* Python compares the nested rank tuples returned by `eval5` lexicographically.
  Since the arity and nesting shape of each tuple is uniquely determined by its
  first element (the category), flattening the nested tuples into a flat
  `List Nat` preserves both the comparison and the equality semantics; `eval5`
  below therefore returns the flattened tuple, and `tupLt` is Python's
  sequence comparison on the flattened values.
* Python raises `IndexError` on out-of-range list indices; the embedding uses
  `List.getD`, which agrees with Python whenever the index is in range.  All
  claims are stated for input sizes under which every index used by the source
  is in range.
-/

/-- A playing card in parsed form: rank through `RANK_TO_INT` (2..14) and suit
index into `"cdhs"`. -/
structure Card where
  rank : Nat
  suit : Fin 4
deriving DecidableEq

instance : Inhabited Card := ⟨⟨2, 0⟩⟩

/-- Python sequence comparison (`<`) on flat integer tuples: a shorter tuple
that is a proper prefix is smaller, otherwise the first differing position
decides. -/
def tupLt : List Nat → List Nat → Bool
  | [], [] => false
  | [], _ :: _ => true
  | _ :: _, [] => false
  | a :: xs, b :: ys => if a < b then true else if b < a then false else tupLt xs ys

/-- A hand rank: the flattened form of the tuples returned by `eval5`. The head
is the primary category (0..8) and the tail is the tie-break payload. -/
abbrev HandRank := List Nat

/-- Membership test on naturals (primitive recursion, kernel-friendly). -/
def memNat (x : Nat) : List Nat → Bool
  | [] => false
  | y :: ys => x == y || memNat x ys

/-- The distinct elements of a list, modelling Python's `set(...)` /
`Counter(...).keys()`.  The order in which the distinct elements come out is
irrelevant to every use below (they are always re-sorted or used as a key
set). -/
def dedupNat : List Nat → List Nat
  | [] => []
  | x :: xs => if memNat x xs then dedupNat xs else x :: dedupNat xs

/-- Number of occurrences of `x`, modelling `Counter(ranks)[x]`. -/
def countNat (x : Nat) : List Nat → Nat
  | [] => 0
  | y :: ys => countNat x ys + (if x == y then 1 else 0)

/-- Insert into a descending-sorted list, keeping it descending. -/
def insertDescNat (x : Nat) : List Nat → List Nat
  | [] => [x]
  | y :: ys => if Nat.ble y x then x :: y :: ys else y :: insertDescNat x ys

/-- `sorted(l, reverse=True)` on integers (insertion sort; equal elements of
`Nat` are identical, so stability is moot and this produces exactly Python's
output). -/
def sortDescNat : List Nat → List Nat
  | [] => []
  | x :: xs => insertDescNat x (sortDescNat xs)

/-- Descending comparison by `(count, rank)`, the key used for
`counts_sorted`. -/
def countsGe (a b : Nat × Nat) : Bool :=
  Nat.blt b.2 a.2 || (a.2 == b.2 && Nat.ble b.1 a.1)

/-- Insert into a list sorted descending by `(count, rank)`. -/
def insertCountsDesc (x : Nat × Nat) : List (Nat × Nat) → List (Nat × Nat)
  | [] => [x]
  | y :: ys => if countsGe x y then x :: y :: ys else y :: insertCountsDesc x ys

/-- `sorted(Counter(ranks).items(), key=lambda x: (x[1], x[0]), reverse=True)`:
the key is total and antisymmetric on distinct-rank entries, so this is
exactly the list Python produces. -/
def sortCountsDesc : List (Nat × Nat) → List (Nat × Nat)
  | [] => []
  | x :: xs => insertCountsDesc x (sortCountsDesc xs)

/-- `max(...)` over a list of ranks (the source only applies it to nonempty
lists, where the 0 default is never the maximum). -/
def foldMax : List Nat → Nat
  | [] => 0
  | x :: xs => Nat.max x (foldMax xs)

/-- The body of `Player.eval5` after the rank/suit extraction: takes the
descending-sorted rank list (Python's `ranks`) and the flush flag (Python's
`is_flush`, i.e. `len(set(suits)) == 1`).

`counts_sorted` is `sorted(Counter(ranks).items(), key=lambda x: (x[1], x[0]),
reverse=True)`: the distinct ranks with their multiplicities, ordered by
(count, rank) descending — the ordering relation below is total and
antisymmetric on distinct-rank entries, so the sorted list is exactly the one
Python produces.  `max(...)` over a nonempty list of ranks is modelled as
`foldl max 0`. -/
def eval5core (ranks : List Nat) (is_flush : Bool) : HandRank :=
  let counts_sorted := sortCountsDesc ((dedupNat ranks).map fun r => (r, countNat r ranks))
  -- `uniq = sorted(set(ranks), reverse=True)`; the straight test indexes it
  -- only after checking `len(uniq) == 5`, which the 5-element pattern mirrors.
  -- The wheel test `uniq == [14, 5, 4, 3, 2]` is written elementwise.
  let st :=
    match sortDescNat (dedupNat ranks) with
    | [u0, u1, u2, u3, u4] =>
      if u0 - u4 == 4 then (true, u0)
      else if u0 == 14 && u1 == 5 && u2 == 4 && u3 == 3 && u4 == 2 then (true, (5 : Nat))
      else (false, 0)
    | _ => (false, 0)
  if is_flush && st.1 then [8, st.2]
  else
    -- `c1_rank, c1_cnt = counts_sorted[0]`, `c2_rank, c2_cnt = counts_sorted[1]
    -- if len(counts_sorted) > 1 else (0, 0)`, then the source's
    -- `if c1_cnt == 4 / elif ... / else` chain verbatim.
    match counts_sorted.getD 0 (0, 0), counts_sorted.getD 1 (0, 0) with
    | (c1_rank, c1_cnt), (c2_rank, c2_cnt) =>
      if c1_cnt == 4 then
        [7, c1_rank, foldMax (ranks.filter fun r => r != c1_rank)]
      else if c1_cnt == 3 && c2_cnt == 2 then [6, c1_rank, c2_rank]
      else if is_flush then 5 :: sortDescNat ranks
      else if st.1 then [4, st.2]
      else if c1_cnt == 3 then 3 :: c1_rank :: sortDescNat (ranks.filter fun r => r != c1_rank)
      else if c1_cnt == 2 && c2_cnt == 2 then
        let high_pair := Nat.max c1_rank c2_rank
        let low_pair := Nat.min c1_rank c2_rank
        [2, high_pair, low_pair,
          foldMax (ranks.filter fun r => r != high_pair && r != low_pair)]
      else if c1_cnt == 2 then 1 :: c1_rank :: sortDescNat (ranks.filter fun r => r != c1_rank)
      else 0 :: sortDescNat ranks

/-- The flush flag of `eval5`: `len(set(suits)) == 1`. -/
def flushFlag (cards5 : List Card) : Bool :=
  (dedupNat (cards5.map fun cd => cd.suit.val)).length == 1

/-- `Player.eval5`: the 5-card classifier.  `ranks` is the descending-sorted
rank list and the flush flag is `len(set(suits)) == 1`. -/
def eval5 (cards5 : List Card) : HandRank :=
  eval5core (sortDescNat (cards5.map Card.rank)) (flushFlag cards5)

/-- The canonical ranking law of the spec (§4.2), reference classifier for the
refinement claim: straight detection as "5 consecutive distinct ranks" (with
the ace-low wheel high-5), and the categories read off the rank
multiplicities directly.  `ranksOfCount k` lists, in descending order, the
distinct ranks appearing exactly `k` times. -/
def specCore (ranks : List Nat) (is_flush : Bool) : HandRank :=
  let straight_high :=
    match sortDescNat (dedupNat ranks) with
    | [a, b, c, d, e] =>
      if a == b + 1 && b == c + 1 && c == d + 1 && d == e + 1 then some a
      else if a == 14 && b == 5 && c == 4 && d == 3 && e == 2 then some 5
      else none
    | _ => none
  -- the distinct ranks appearing exactly 4 / 3 / 2 times, descending
  match (sortDescNat (dedupNat ranks)).filter (fun r => countNat r ranks == 4),
      (sortDescNat (dedupNat ranks)).filter (fun r => countNat r ranks == 3),
      (sortDescNat (dedupNat ranks)).filter (fun r => countNat r ranks == 2) with
  | quadRanks, tripRanks, pairRanks =>
    if is_flush && straight_high.isSome then [8, straight_high.getD 0]
    else
      match quadRanks, tripRanks, pairRanks with
      | q :: _, _, _ => [7, q, (sortDescNat (ranks.filter fun r => r != q)).headD 0]
      | [], t :: _, p :: _ => [6, t, p]
      | [], ts, ps =>
        if is_flush then 5 :: sortDescNat ranks
        else if straight_high.isSome then [4, straight_high.getD 0]
        else
          match ts, ps with
          | t :: _, _ => 3 :: t :: sortDescNat (ranks.filter fun r => r != t)
          | [], [hp, lp] =>
            [2, hp, lp, (sortDescNat (ranks.filter fun r => r != hp && r != lp)).headD 0]
          | [], [p] => 1 :: p :: sortDescNat (ranks.filter fun r => r != p)
          | [], _ => 0 :: sortDescNat ranks

/-- The canonical law applied to a 5-card hand (same rank/flush extraction as
`eval5`). -/
def specRank (cards5 : List Card) : HandRank :=
  specCore (sortDescNat (cards5.map Card.rank)) (flushFlag cards5)

/-- One instance of the finite refinement check on a descending rank tuple:
without a flush the cores must agree unless all five ranks are equal
(impossible for five distinct physical cards); with a flush they must agree
whenever the five ranks are pairwise distinct (five equal-suited distinct
cards always have distinct ranks). -/
def lawTuple (a b c d e : Nat) : Bool :=
  (a == e || eval5core [a, b, c, d, e] false == specCore [a, b, c, d, e] false) &&
    (a == b || b == c || c == d || d == e ||
      eval5core [a, b, c, d, e] true == specCore [a, b, c, d, e] true)

/-- `allFrom f lo n` checks `f` on `lo, lo+1, ..., lo+n-1`. -/
def allFrom (f : Nat → Bool) : Nat → Nat → Bool
  | _, 0 => true
  | lo, n + 1 => f lo && allFrom f (lo + 1) n

/-- A band of the refinement check: for the fixed top rank `a`, every
descending 5-tuple `a ≥ b ≥ c ≥ d ≥ e ≥ 2` with `b` in the window
`[bLo, bLo + bN)` satisfies `lawTuple`.  The check is split into bands so
that each kernel evaluation stays small. -/
def checkBand (a bLo bN : Nat) : Bool :=
  allFrom (fun b =>
    allFrom (fun c =>
      allFrom (fun d =>
        allFrom (fun e => lawTuple a b c d e) 2 (d - 1)) 2 (c - 1)) 2 (b - 1)) bLo bN

/-- A well-formed 5-card hand: five distinct physical cards with ranks in the
deck's rank alphabet. -/
def ValidHand5 (cards : List Card) : Prop :=
  cards.length = 5 ∧ cards.Nodup ∧ ∀ cd ∈ cards, 2 ≤ cd.rank ∧ cd.rank ≤ 14

instance : DecidablePred ValidHand5 := fun cards => by
  unfold ValidHand5
  infer_instance

/-- The inner loop of `Player.eval7`: `best = None; for ...: if best is None or
score > best: best = score` over a nonempty score list, split into the first
score and the rest. -/
def runBest (first : HandRank) (rest : List HandRank) : HandRank :=
  rest.foldl (fun best score => if tupLt best score then score else best) first

/-- `Player.eval7`: for at most 5 cards, a direct call to `eval5`; otherwise
the best `eval5` value over all 5-card subsets.  Python enumerates
`combinations(range(n), 5)` in lexicographic index order and
`List.sublistsLen` enumerates the same subsets in a different order; the
returned value is the unique maximum of the same multiset of scores either
way.  The `[]` case is unreachable (a list longer than 5 has 5-element
sublists; Python's `best` would be `None` there). -/
def eval7 (cards : List Card) : HandRank :=
  if cards.length ≤ 5 then eval5 cards
  else
    match (cards.sublistsLen 5).map eval5 with
    | [] => []
    | s :: rest => runBest s rest

/-- `best_two_from_three` (closure inside `Player.calculate_equity_python`):
evaluates the three 2-card retentions of a 3-card hand against the current
board with `eval7` and keeps the first retention of maximal score (strict
improvement, drop indices 0, 1, 2 in order). -/
def best_two_from_three (cards3 current_board : List Card) : List Card :=
  let keep0 := [cards3.getD 1 default, cards3.getD 2 default]
  let keep1 := [cards3.getD 0 default, cards3.getD 2 default]
  let keep2 := [cards3.getD 0 default, cards3.getD 1 default]
  let best01 :=
    if tupLt (eval7 (keep0 ++ current_board)) (eval7 (keep1 ++ current_board)) then keep1
    else keep0
  if tupLt (eval7 (best01 ++ current_board)) (eval7 (keep2 ++ current_board)) then keep2
  else best01

/-- `full_deck = [r + s for r in "23456789TJQKA" for s in "cdhs"]`. -/
def full_deck : List Card :=
  (List.range' 2 13).flatMap fun r => (List.finRange 4).map fun s => ⟨r, s⟩

/-- `used = set(my_cards + list(board)); deck = [c for c in full_deck if c not
in used]`. -/
def unseen_deck (my_cards board : List Card) : List Card :=
  full_deck.filter fun cd => decide (cd ∉ my_cards ++ board)

/-- The `wins` increment of one showdown: `1.0` when `s1 > s2`, `0.5` when
`s1 == s2`, else `0`. -/
def scoreOf (s1 s2 : HandRank) : ℚ :=
  if tupLt s2 s1 then 1 else if s1 = s2 then 1 / 2 else 0

/-- One iteration of the Monte Carlo loop, given the deck as shuffled for this
iteration: take the next 3 cards as the opponent's hand, reduce our own hand
via `best_two_from_three` only if it still has 3 cards, reduce the
opponent's hand the same way (both against the pre-runout board), run the
board out to 6 cards from the next deck positions, evaluate both 8-card
pools with `eval7`, and score via `scoreOf` (1 for a strict win, 1/2 for an
exact tie, 0 for a loss). -/
def simIterScore (deck : List Card) (my_cards board : List Card) : ℚ :=
  let opp3 := [deck.getD 0 default, deck.getD 1 default, deck.getD 2 default]
  let sim_board := board
  let my2 := if my_cards.length = 3 then best_two_from_three my_cards sim_board else my_cards
  let opp2 := best_two_from_three opp3 sim_board
  let final_board := sim_board ++ (deck.drop 3).take (6 - sim_board.length)
  let s1 := eval7 (my2 ++ final_board)
  let s2 := eval7 (opp2 ++ final_board)
  scoreOf s1 s2

/-- The `for _ in range(iterations)` loop of `calculate_equity_python`:
`k` is the index of the next shuffle call, `deck` the current deck (shuffled
in place by `self.rng.shuffle`, so each iteration shuffles the previous
iteration's deck), `wins` the accumulator. -/
def simLoop (σ : Nat → List Card → List Card) (my_cards board : List Card) :
    Nat → Nat → List Card → ℚ → ℚ
  | 0, _, _, wins => wins
  | n + 1, k, deck, wins =>
    let deck' := σ k deck
    simLoop σ my_cards board n (k + 1) deck' (wins + simIterScore deck' my_cards board)

/-- `Player.calculate_equity_python`: the Monte Carlo equity simulator.  `σ`
and `pos` are the shuffle oracle and its position (the state of `self.rng`).
`wins / float(iterations)` is rational division (for `iterations = 0` Python
raises `ZeroDivisionError`; every call site passes a positive bucket). -/
def calculate_equity_python (σ : Nat → List Card → List Card) (pos : Nat)
    (my_cards board : List Card) (iterations : Nat) : ℚ :=
  simLoop σ my_cards board iterations pos (unseen_deck my_cards board) 0 / (iterations : ℚ)

/-- The deck contents after `n` further shuffle calls starting at call index
`k` (iteration `i` of the loop sees `deck_after σ k deck (i+1)`). -/
def deck_after (σ : Nat → List Card → List Card) (k : Nat) (deck : List Card) : Nat → List Card
  | 0 => deck
  | i + 1 => σ (k + i) (deck_after σ k deck i)

/-- ASCII code of the rank character of a card token (`'2'..'9'`, `'T'`,
`'J'`, `'Q'`, `'K'`, `'A'`); injectively extended outside 2..14 so the token
order is antisymmetric everywhere. -/
def asciiRank (r : Nat) : Nat :=
  if r ≤ 9 then 48 + r
  else if r = 10 then 84
  else if r = 11 then 74
  else if r = 12 then 81
  else if r = 13 then 75
  else if r = 14 then 65
  else 100 + r

/-- Python compares the two-character card tokens lexicographically: rank
character first, then suit character (`"cdhs"` is ASCII-increasing).  Packing
them as `4 * rankChar + suit` induces exactly that order. -/
def asciiKey (cd : Card) : Nat := 4 * asciiRank cd.rank + cd.suit.val

/-- The string order on card tokens used by `sorted(my_cards)`. -/
def cardTokenLE (c1 c2 : Card) : Prop := asciiKey c1 ≤ asciiKey c2

instance : DecidableRel cardTokenLE := fun _ _ => Nat.decLe _ _

instance : IsTotal Card cardTokenLE := ⟨fun a b => Nat.le_total (asciiKey a) (asciiKey b)⟩

instance : IsTrans Card cardTokenLE := ⟨fun _ _ _ h1 h2 => Nat.le_trans h1 h2⟩

instance : IsAntisymm Card cardTokenLE := by
  constructor
  intro a b h1 h2
  obtain ⟨ra, sa⟩ := a
  obtain ⟨rb, sb⟩ := b
  have hk : asciiKey ⟨ra, sa⟩ = asciiKey ⟨rb, sb⟩ := Nat.le_antisymm h1 h2
  have hsa := sa.isLt
  have hsb := sb.isLt
  simp only [asciiKey, asciiRank] at hk
  have : ra = rb ∧ sa.val = sb.val := by split_ifs at hk <;> omega
  obtain ⟨h3, h4⟩ := this
  subst h3
  exact congrArg (Card.mk ra) (Fin.ext h4)

/-- `sorted(my_cards)` on card tokens. -/
def sortCards (l : List Card) : List Card := l.insertionSort cardTokenLE

/-- `it_bucket = 40 if iterations <= 45 else 60 if iterations <= 70 else 90 if
iterations <= 100 else 120`. -/
def it_bucket (iterations : Nat) : Nat :=
  if iterations ≤ 45 then 40
  else if iterations ≤ 70 then 60
  else if iterations ≤ 100 then 90
  else 120

/-- The cache key `(tuple(sorted(my_cards)), tuple(board), street,
it_bucket)`. -/
abbrev EqKey := List Card × List Card × Nat × Nat

/-- `Player.calculate_equity`'s key construction. -/
def equity_key (my_cards board : List Card) (street iterations : Nat) : EqKey :=
  (sortCards my_cards, board, street, it_bucket iterations)

/-- The mutable state of the `Player` instance touched by the equity
machinery: the shuffle oracle modelling `self.rng` (`shuffles k` is the deck
produced by the k-th `shuffle` call, `pos` counts calls already made), the
cache `self.eq_cache` as an association list (newest entry first, exact-key
lookup — the same lookup semantics as the Python dict), and an observation
counter `sims` recording how often the simulator has run (the spec's
"injected call counter" on the simulator). -/
structure BotState where
  shuffles : Nat → List Card → List Card
  pos : Nat
  eq_cache : List (EqKey × ℚ)
  sims : Nat

/-- `self.eq_cache.get(key)`. -/
def listLookup : List (EqKey × ℚ) → EqKey → Option ℚ
  | [], _ => none
  | (k, v) :: rest, key => if k = key then some v else listLookup rest key

/-- `Player.calculate_equity`: the cache wrapper around the simulator.  On a
hit the state is unchanged; on a miss the simulator runs with the bucket's
canonical iteration count (consuming one shuffle call per iteration), the
result is stored, and the simulator-invocation counter increments. -/
def calculate_equity (st : BotState) (my_cards board : List Card) (street iterations : Nat) :
    ℚ × BotState :=
  let key := equity_key my_cards board street iterations
  match listLookup st.eq_cache key with
  | some v => (v, st)
  | none =>
    let eq := calculate_equity_python st.shuffles st.pos my_cards board (it_bucket iterations)
    (eq, { st with pos := st.pos + it_bucket iterations,
                   eq_cache := (key, eq) :: st.eq_cache,
                   sims := st.sims + 1 })

/-- `Player.get_best_discard`, returning the chosen index (the source wraps it
in `DiscardAction`) and the updated state.  The loop over `i in range(3)` is
unrolled; `best_idx, best_eq` start at `0, -1.0` and update on strict
improvement `eq > best_eq`. -/
def get_best_discard (st : BotState) (my_cards board : List Card) : Nat × BotState :=
  let iters := if 2 ≤ board.length then 60 else 50
  match calculate_equity st [my_cards.getD 1 default, my_cards.getD 2 default]
      (board ++ [my_cards.getD 0 default]) 1 iters with
  | (e0, st1) =>
    let b0 := if (-1 : ℚ) < e0 then (0, e0) else (0, (-1 : ℚ))
    match calculate_equity st1 [my_cards.getD 0 default, my_cards.getD 2 default]
        (board ++ [my_cards.getD 1 default]) 1 iters with
    | (e1, st2) =>
      let b1 := if b0.2 < e1 then (1, e1) else b0
      match calculate_equity st2 [my_cards.getD 0 default, my_cards.getD 1 default]
          (board ++ [my_cards.getD 2 default]) 1 iters with
      | (e2, st3) =>
        let b2 := if b1.2 < e2 then (2, e2) else b1
        (b2.1, st3)

/-- The three candidate equities examined by `get_best_discard`, in loop
order (the cache and rng state thread through the three calls exactly as in
the loop). -/
def discard_equities (st : BotState) (my_cards board : List Card) : ℚ × ℚ × ℚ :=
  let iters := if 2 ≤ board.length then 60 else 50
  match calculate_equity st [my_cards.getD 1 default, my_cards.getD 2 default]
      (board ++ [my_cards.getD 0 default]) 1 iters with
  | (e0, st1) =>
    match calculate_equity st1 [my_cards.getD 0 default, my_cards.getD 2 default]
        (board ++ [my_cards.getD 1 default]) 1 iters with
    | (e1, st2) =>
      match calculate_equity st2 [my_cards.getD 0 default, my_cards.getD 1 default]
          (board ++ [my_cards.getD 2 default]) 1 iters with
      | (e2, _) => (e0, e1, e2)

/-- Every estimate stored in the cache is a probability (true of every state
reachable from a fresh `Player`, whose cache starts empty). -/
def CacheWF (st : BotState) : Prop := ∀ kv ∈ st.eq_cache, 0 ≤ kv.2 ∧ kv.2 ≤ 1

/-- Component access on the candidate-equity triple, by discard index. -/
def nth3 (es : ℚ × ℚ × ℚ) : Nat → ℚ
  | 0 => es.1
  | 1 => es.2.1
  | _ => es.2.2

/-! ### Order properties of the Python tuple comparison -/

theorem tupLt_irrefl : ∀ x : List Nat, tupLt x x = false
  | [] => rfl
  | a :: xs => by simp [tupLt, tupLt_irrefl xs]

theorem tupLt_asymm : ∀ x y : List Nat, tupLt x y = true → tupLt y x = false
  | [], [] => by simp [tupLt]
  | [], _ :: _ => fun _ => rfl
  | _ :: _, [] => by simp [tupLt]
  | a :: xs, b :: ys => by
    rcases Nat.lt_trichotomy a b with h | h | h
    · intro _
      simp [tupLt, h, Nat.lt_asymm h]
    · subst h
      simp only [tupLt, Nat.lt_irrefl, if_false]
      exact tupLt_asymm xs ys
    · simp [tupLt, h, Nat.lt_asymm h]

theorem tupLt_total : ∀ x y : List Nat, tupLt x y = true ∨ tupLt y x = true ∨ x = y
  | [], [] => Or.inr (Or.inr rfl)
  | [], _ :: _ => Or.inl rfl
  | _ :: _, [] => Or.inr (Or.inl rfl)
  | a :: xs, b :: ys => by
    rcases Nat.lt_trichotomy a b with h | h | h
    · left
      simp [tupLt, h]
    · subst h
      rcases tupLt_total xs ys with h2 | h2 | h2
      · left
        simp [tupLt, h2]
      · right; left
        simp [tupLt, h2]
      · right; right
        simp [h2]
    · right; left
      simp [tupLt, h]

theorem tupLt_trans : ∀ x y z : List Nat,
    tupLt x y = true → tupLt y z = true → tupLt x z = true
  | [], [], _ => by simp [tupLt]
  | [], _ :: _, [] => by intro _ h2; simp [tupLt] at h2
  | [], _ :: _, _ :: _ => fun _ _ => rfl
  | _ :: _, [], _ => by simp [tupLt]
  | _ :: _, _ :: _, [] => by intro _ h2; simp [tupLt] at h2
  | a :: xs, b :: ys, c :: zs => by
    intro h1 h2
    rcases Nat.lt_trichotomy a b with hab | hab | hab
    · rcases Nat.lt_trichotomy b c with hbc | hbc | hbc
      · simp [tupLt, Nat.lt_trans hab hbc]
      · subst hbc
        simp [tupLt, hab]
      · simp [tupLt, hbc, Nat.lt_asymm hbc] at h2
    · subst hab
      rcases Nat.lt_trichotomy a c with hbc | hbc | hbc
      · simp [tupLt, hbc]
      · subst hbc
        simp only [tupLt, Nat.lt_irrefl, if_false] at h1 h2 ⊢
        exact tupLt_trans xs ys zs h1 h2
      · simp [tupLt, hbc, Nat.lt_asymm hbc] at h2
    · simp [tupLt, hab, Nat.lt_asymm hab] at h1

theorem tupLt_ge_trans (r a x : List Nat)
    (h1 : tupLt r a = false) (h2 : tupLt a x = false) : tupLt r x = false := by
  cases hrx : tupLt r x with
  | false => rfl
  | true =>
    rcases tupLt_total x a with h3 | h3 | h3
    · rw [tupLt_trans r x a hrx h3] at h1
      cases h1
    · rw [h3] at h2
      cases h2
    · subst h3
      rw [hrx] at h1
      cases h1

theorem list_eq_iff_head_tail (x y : List Nat) :
    x = y ↔ (x.head? = y.head? ∧ x.tail = y.tail) := by
  constructor
  · rintro rfl
    exact ⟨rfl, rfl⟩
  · rintro ⟨h1, h2⟩
    cases x <;> cases y <;> simp_all

/-! ### Properties of the list primitives -/

theorem memNat_eq_true_iff (x : Nat) : ∀ l : List Nat, memNat x l = true ↔ x ∈ l
  | [] => by simp [memNat]
  | y :: ys => by
    simp [memNat, memNat_eq_true_iff x ys]

theorem mem_dedupNat (x : Nat) : ∀ l : List Nat, x ∈ dedupNat l ↔ x ∈ l
  | [] => Iff.rfl
  | y :: ys => by
    simp only [dedupNat]
    split_ifs with h
    · rw [mem_dedupNat x ys]
      have hy : y ∈ ys := (memNat_eq_true_iff y ys).mp h
      simp only [List.mem_cons]
      constructor
      · exact Or.inr
      · rintro (rfl | hx)
        · exact hy
        · exact hx
    · simp [List.mem_cons, mem_dedupNat x ys]

theorem dedupNat_nodup : ∀ l : List Nat, (dedupNat l).Nodup
  | [] => List.nodup_nil
  | y :: ys => by
    simp only [dedupNat]
    split_ifs with h
    · exact dedupNat_nodup ys
    · refine List.nodup_cons.mpr ⟨?_, dedupNat_nodup ys⟩
      intro hy
      exact h ((memNat_eq_true_iff y ys).mpr ((mem_dedupNat y ys).mp hy))

theorem countNat_eq_count (x : Nat) : ∀ l : List Nat, countNat x l = l.count x
  | [] => rfl
  | y :: ys => by
    by_cases h : x = y
    · subst h
      simp [countNat, List.count_cons, countNat_eq_count x ys]
    · simp [countNat, List.count_cons, countNat_eq_count x ys, h, Ne.symm h]

theorem insertDescNat_perm (x : Nat) : ∀ l : List Nat, List.Perm (insertDescNat x l) (x :: l)
  | [] => List.Perm.refl _
  | y :: ys => by
    simp only [insertDescNat]
    split_ifs with h
    · exact List.Perm.refl _
    · exact ((insertDescNat_perm x ys).cons y).trans (List.Perm.swap x y ys)

theorem sortDescNat_perm : ∀ l : List Nat, List.Perm (sortDescNat l) l
  | [] => List.Perm.refl _
  | x :: xs => (insertDescNat_perm x (sortDescNat xs)).trans ((sortDescNat_perm xs).cons x)

theorem insertDescNat_sorted (x : Nat) :
    ∀ l : List Nat, l.Sorted (· ≥ ·) → (insertDescNat x l).Sorted (· ≥ ·)
  | [] => by simp [insertDescNat]
  | y :: ys => fun h => by
    simp only [insertDescNat]
    split_ifs with hb
    · have hxy : y ≤ x := Nat.le_of_ble_eq_true hb
      refine List.sorted_cons.mpr ⟨?_, h⟩
      intro b hb2
      rcases List.mem_cons.mp hb2 with rfl | hmem
      · exact hxy
      · exact le_trans ((List.sorted_cons.mp h).1 b hmem) hxy
    · have hyx : x ≤ y := by
        rcases Nat.le_total y x with h2 | h2
        · exact absurd (Nat.ble_eq ▸ h2) hb
        · exact h2
      have hs := List.sorted_cons.mp h
      refine List.sorted_cons.mpr ⟨?_, insertDescNat_sorted x ys hs.2⟩
      intro b hb2
      have hbmem : b ∈ x :: ys := (insertDescNat_perm x ys).subset hb2
      rcases List.mem_cons.mp hbmem with rfl | hmem
      · exact hyx
      · exact hs.1 b hmem

theorem sortDescNat_sorted : ∀ l : List Nat, (sortDescNat l).Sorted (· ≥ ·)
  | [] => List.sorted_nil
  | x :: xs => insertDescNat_sorted x _ (sortDescNat_sorted xs)

/-! ### Pigeonhole facts about valid hands -/

theorem count_map_eq_countP (cards : List Card) (r : Nat) :
    (cards.map Card.rank).count r = cards.countP fun cd => cd.rank == r := by
  induction cards with
  | nil => rfl
  | cons c t ih =>
    by_cases h : c.rank = r
    · simp [List.count_cons, List.countP_cons, ih, h]
    · simp [List.count_cons, List.countP_cons, ih, h, Ne.symm h]

theorem count_rank_le_four (cards : List Card) (h : cards.Nodup) (r : Nat) :
    (cards.map Card.rank).count r ≤ 4 := by
  rw [count_map_eq_countP, List.countP_eq_length_filter]
  have hnd : ((cards.filter fun cd => cd.rank == r).map Card.suit).Nodup := by
    refine List.Nodup.map_on ?_ (h.filter _)
    intro x hx y hy hxy
    have hx2 : x.rank = r := by simpa using (List.mem_filter.mp hx).2
    have hy2 : y.rank = r := by simpa using (List.mem_filter.mp hy).2
    obtain ⟨xr, xs⟩ := x
    obtain ⟨yr, ys⟩ := y
    simp_all
  have hlen := hnd.length_le_card
  simpa using hlen

theorem flush_ranks_nodup (cards : List Card) (hnd : cards.Nodup)
    (hf : flushFlag cards = true) : (cards.map Card.rank).Nodup := by
  have hsuits : ∀ x ∈ cards, ∀ y ∈ cards, x.suit = y.suit := by
    unfold flushFlag at hf
    have hlen : (dedupNat (cards.map fun cd => cd.suit.val)).length = 1 := by
      simpa using hf
    obtain ⟨v, hv⟩ := List.length_eq_one.mp hlen
    intro x hx y hy
    have hxv : x.suit.val = v := by
      have hm : x.suit.val ∈ dedupNat (cards.map fun cd => cd.suit.val) :=
        (mem_dedupNat _ _).mpr (List.mem_map.mpr ⟨x, hx, rfl⟩)
      rw [hv] at hm
      simpa using hm
    have hyv : y.suit.val = v := by
      have hm : y.suit.val ∈ dedupNat (cards.map fun cd => cd.suit.val) :=
        (mem_dedupNat _ _).mpr (List.mem_map.mpr ⟨y, hy, rfl⟩)
      rw [hv] at hm
      simpa using hm
    exact Fin.ext (hxv.trans hyv.symm)
  refine List.Nodup.map_on ?_ hnd
  intro x hx y hy hxy
  obtain ⟨xr, xs⟩ := x
  obtain ⟨yr, ys⟩ := y
  have := hsuits ⟨xr, xs⟩ hx ⟨yr, ys⟩ hy
  simp_all

/-! ### The finite refinement check -/

theorem allFrom_eq_true {f : Nat → Bool} :
    ∀ n lo, allFrom f lo n = true → ∀ x, lo ≤ x → x < lo + n → f x = true := by
  intro n
  induction n with
  | zero => intro lo _ x h1 h2; omega
  | succ m ih =>
    intro lo h x h1 h2
    rw [allFrom, Bool.and_eq_true] at h
    obtain ⟨hf, hrest⟩ := h
    by_cases hx : x = lo
    · subst hx
      exact hf
    · exact ih (lo + 1) hrest x (by omega) (by omega)

set_option maxRecDepth 100000 in
theorem checkBand_2_2 : checkBand 2 2 1 = true := by decide!

set_option maxRecDepth 100000 in
theorem checkBand_3_2 : checkBand 3 2 2 = true := by decide!

set_option maxRecDepth 100000 in
theorem checkBand_4_2 : checkBand 4 2 3 = true := by decide!

set_option maxRecDepth 100000 in
theorem checkBand_5_2 : checkBand 5 2 4 = true := by decide!

set_option maxRecDepth 100000 in
theorem checkBand_6_2 : checkBand 6 2 5 = true := by decide!

set_option maxRecDepth 100000 in
theorem checkBand_7_2 : checkBand 7 2 6 = true := by decide!

set_option maxRecDepth 100000 in
theorem checkBand_8_2 : checkBand 8 2 7 = true := by decide!

set_option maxRecDepth 100000 in
theorem checkBand_9_2 : checkBand 9 2 8 = true := by decide!

set_option maxRecDepth 100000 in
theorem checkBand_10_2 : checkBand 10 2 9 = true := by decide!

set_option maxRecDepth 100000 in
theorem checkBand_11_2 : checkBand 11 2 9 = true := by decide!

set_option maxRecDepth 100000 in
theorem checkBand_11_11 : checkBand 11 11 1 = true := by decide!

set_option maxRecDepth 100000 in
theorem checkBand_12_2 : checkBand 12 2 9 = true := by decide!

set_option maxRecDepth 100000 in
theorem checkBand_12_11 : checkBand 12 11 2 = true := by decide!

set_option maxRecDepth 100000 in
theorem checkBand_13_2 : checkBand 13 2 9 = true := by decide!

set_option maxRecDepth 100000 in
theorem checkBand_13_11 : checkBand 13 11 2 = true := by decide!

set_option maxRecDepth 100000 in
theorem checkBand_13_13 : checkBand 13 13 1 = true := by decide!

set_option maxRecDepth 100000 in
theorem checkBand_14_2 : checkBand 14 2 9 = true := by decide!

set_option maxRecDepth 100000 in
theorem checkBand_14_11 : checkBand 14 11 2 = true := by decide!

set_option maxRecDepth 100000 in
theorem checkBand_14_13 : checkBand 14 13 1 = true := by decide!

set_option maxRecDepth 100000 in
theorem checkBand_14_14 : checkBand 14 14 1 = true := by decide!

theorem bLevel_holds (a b : Nat) (hb2 : 2 ≤ b) (hba : b ≤ a) (ha2 : 2 ≤ a)
    (ha14 : a ≤ 14) :
    allFrom (fun c =>
      allFrom (fun d =>
        allFrom (fun e => lawTuple a b c d e) 2 (d - 1)) 2 (c - 1)) 2 (b - 1) = true := by
  interval_cases a
  · exact allFrom_eq_true _ _ checkBand_2_2 b hb2 (by omega)
  · exact allFrom_eq_true _ _ checkBand_3_2 b hb2 (by omega)
  · exact allFrom_eq_true _ _ checkBand_4_2 b hb2 (by omega)
  · exact allFrom_eq_true _ _ checkBand_5_2 b hb2 (by omega)
  · exact allFrom_eq_true _ _ checkBand_6_2 b hb2 (by omega)
  · exact allFrom_eq_true _ _ checkBand_7_2 b hb2 (by omega)
  · exact allFrom_eq_true _ _ checkBand_8_2 b hb2 (by omega)
  · exact allFrom_eq_true _ _ checkBand_9_2 b hb2 (by omega)
  · exact allFrom_eq_true _ _ checkBand_10_2 b hb2 (by omega)
  · by_cases hble : b ≤ 10
    · exact allFrom_eq_true _ _ checkBand_11_2 b hb2 (by omega)
    · exact allFrom_eq_true _ _ checkBand_11_11 b (by omega) (by omega)
  · by_cases hble : b ≤ 10
    · exact allFrom_eq_true _ _ checkBand_12_2 b hb2 (by omega)
    · exact allFrom_eq_true _ _ checkBand_12_11 b (by omega) (by omega)
  · by_cases hble : b ≤ 10
    · exact allFrom_eq_true _ _ checkBand_13_2 b hb2 (by omega)
    · by_cases hble2 : b ≤ 12
      · exact allFrom_eq_true _ _ checkBand_13_11 b (by omega) (by omega)
      · exact allFrom_eq_true _ _ checkBand_13_13 b (by omega) (by omega)
  · by_cases hble : b ≤ 10
    · exact allFrom_eq_true _ _ checkBand_14_2 b hb2 (by omega)
    · by_cases hble2 : b ≤ 12
      · exact allFrom_eq_true _ _ checkBand_14_11 b (by omega) (by omega)
      · by_cases hble3 : b ≤ 13
        · exact allFrom_eq_true _ _ checkBand_14_13 b (by omega) (by omega)
        · exact allFrom_eq_true _ _ checkBand_14_14 b (by omega) (by omega)

theorem lawTuple_holds (a b c d e : Nat) (ha : 2 ≤ a) (ha14 : a ≤ 14) (hb : 2 ≤ b)
    (hba : b ≤ a) (hc : 2 ≤ c) (hcb : c ≤ b) (hd : 2 ≤ d) (hdc : d ≤ c) (he : 2 ≤ e)
    (hed : e ≤ d) : lawTuple a b c d e = true := by
  have h2 := bLevel_holds a b hb hba ha ha14
  have h3 := allFrom_eq_true _ _ h2 c hc (by omega)
  have h4 := allFrom_eq_true _ _ h3 d hd (by omega)
  exact allFrom_eq_true _ _ h4 e he (by omega)

theorem core_agree_false (a b c d e : Nat) (ha : 2 ≤ a) (ha14 : a ≤ 14) (hb : 2 ≤ b)
    (hba : b ≤ a) (hc : 2 ≤ c) (hcb : c ≤ b) (hd : 2 ≤ d) (hdc : d ≤ c) (he : 2 ≤ e)
    (hed : e ≤ d) (hne : a ≠ e) :
    eval5core [a, b, c, d, e] false = specCore [a, b, c, d, e] false := by
  have hl := lawTuple_holds a b c d e ha ha14 hb hba hc hcb hd hdc he hed
  unfold lawTuple at hl
  rw [Bool.and_eq_true] at hl
  obtain ⟨hl1, _⟩ := hl
  rw [Bool.or_eq_true] at hl1
  rcases hl1 with h | h
  · exact absurd (eq_of_beq h) hne
  · exact eq_of_beq h

theorem core_agree_true (a b c d e : Nat) (ha14 : a ≤ 14) (he : 2 ≤ e)
    (h1 : e < d) (h2 : d < c) (h3 : c < b) (h4 : b < a) :
    eval5core [a, b, c, d, e] true = specCore [a, b, c, d, e] true := by
  have hl := lawTuple_holds a b c d e (by omega) ha14 (by omega) (by omega) (by omega)
    (by omega) (by omega) (by omega) he (by omega)
  unfold lawTuple at hl
  rw [Bool.and_eq_true] at hl
  obtain ⟨_, hl2⟩ := hl
  simp only [Bool.or_eq_true] at hl2
  rcases hl2 with ((((h | h) | h) | h) | h)
  · exact absurd (eq_of_beq h) (by omega)
  · exact absurd (eq_of_beq h) (by omega)
  · exact absurd (eq_of_beq h) (by omega)
  · exact absurd (eq_of_beq h) (by omega)
  · exact eq_of_beq h

theorem exists_five {l : List Nat} (hl : l.length = 5) :
    ∃ a b c d e, l = [a, b, c, d, e] :=
  let [a, b, c, d, e] := l
  ⟨a, b, c, d, e, rfl⟩

theorem eval5_eq_specRank (cards : List Card) (h : ValidHand5 cards) :
    eval5 cards = specRank cards := by
  obtain ⟨hlen, hnd, hr⟩ := h
  have hperm := sortDescNat_perm (cards.map Card.rank)
  have hsort := sortDescNat_sorted (cards.map Card.rank)
  have hlen5 : (sortDescNat (cards.map Card.rank)).length = 5 := by
    rw [hperm.length_eq, List.length_map, hlen]
  obtain ⟨a, b, c, d, e, hl⟩ := exists_five hlen5
  have hsort5 : ([a, b, c, d, e] : List Nat).Sorted (· ≥ ·) := hl ▸ hsort
  have hab : b ≤ a := List.rel_of_sorted_cons hsort5 b (by simp)
  have hbc : c ≤ b := List.rel_of_sorted_cons hsort5.of_cons c (by simp)
  have hcd : d ≤ c := List.rel_of_sorted_cons hsort5.of_cons.of_cons d (by simp)
  have hde : e ≤ d := List.rel_of_sorted_cons hsort5.of_cons.of_cons.of_cons e (by simp)
  have hmem5 : ∀ x ∈ ([a, b, c, d, e] : List Nat), 2 ≤ x ∧ x ≤ 14 := by
    intro x hx
    have hx2 : x ∈ cards.map Card.rank := hperm.subset (hl ▸ hx)
    obtain ⟨cd, hcd2, rfl⟩ := List.mem_map.mp hx2
    exact hr cd hcd2
  have ha14 : a ≤ 14 := (hmem5 a (by simp)).2
  have he2 : 2 ≤ e := (hmem5 e (by simp)).1
  unfold eval5 specRank
  rw [hl]
  by_cases hf : flushFlag cards = true
  · rw [hf]
    have hrnd : (cards.map Card.rank).Nodup := flush_ranks_nodup cards hnd hf
    have hnd5 : ([a, b, c, d, e] : List Nat).Nodup := by
      rw [← hl]
      exact ((sortDescNat_perm _).nodup_iff).mpr hrnd
    simp only [List.nodup_cons, List.mem_cons, List.mem_singleton, List.not_mem_nil] at hnd5
    refine core_agree_true a b c d e ha14 he2 ?_ ?_ ?_ ?_ <;> omega
  · have hf2 : flushFlag cards = false := by
      cases hff : flushFlag cards
      · rfl
      · exact absurd hff hf
    rw [hf2]
    have hcnt := count_rank_le_four cards hnd a
    have hne : a ≠ e := by
      intro hae
      have hcnt5 : (sortDescNat (cards.map Card.rank)).count a = 5 := by
        rw [hl]
        have hba : b = a := by omega
        have hca : c = a := by omega
        have hda : d = a := by omega
        have hea : e = a := by omega
        rw [hba, hca, hda, hea]
        simp [List.count_cons]
      rw [hperm.count_eq] at hcnt5
      omega
    exact core_agree_false a b c d e (by omega) ha14 (by omega) hab (by omega) hbc
      (by omega) hcd he2 hde hne

/-- C1: for every well-formed 5-card hand, `eval5` returns the hand rank
prescribed by the canonical law (`specRank`, built from the spec's category
and tie-break rules); the resulting values totally order any two hands
(trichotomy, asymmetry-with-disequality, transitivity under Python's tuple
comparison `tupLt`), and two values are equal iff their primary category
(head) and tie-break payload (tail) are identical. -/
theorem C1_eval5_canonical_law :
    (∀ cards : List Card, ValidHand5 cards → eval5 cards = specRank cards) ∧
    (∀ hand1 hand2 : List Card, ValidHand5 hand1 → ValidHand5 hand2 →
      tupLt (eval5 hand1) (eval5 hand2) = true ∨
        tupLt (eval5 hand2) (eval5 hand1) = true ∨ eval5 hand1 = eval5 hand2) ∧
    (∀ hand1 hand2 : List Card, tupLt (eval5 hand1) (eval5 hand2) = true →
      tupLt (eval5 hand2) (eval5 hand1) = false ∧ eval5 hand1 ≠ eval5 hand2) ∧
    (∀ hand1 hand2 hand3 : List Card, tupLt (eval5 hand1) (eval5 hand2) = true →
      tupLt (eval5 hand2) (eval5 hand3) = true →
        tupLt (eval5 hand1) (eval5 hand3) = true) ∧
    (∀ hand1 hand2 : List Card, eval5 hand1 = eval5 hand2 ↔
      ((eval5 hand1).head? = (eval5 hand2).head? ∧
        (eval5 hand1).tail = (eval5 hand2).tail)) := by
  refine ⟨fun cards h => eval5_eq_specRank cards h, ?_, ?_, ?_, ?_⟩
  · intro hand1 hand2 _ _
    exact tupLt_total (eval5 hand1) (eval5 hand2)
  · intro hand1 hand2 hlt
    refine ⟨tupLt_asymm _ _ hlt, fun heq => ?_⟩
    rw [heq, tupLt_irrefl] at hlt
    cases hlt
  · intro hand1 hand2 hand3 hlt1 hlt2
    exact tupLt_trans _ _ _ hlt1 hlt2
  · intro hand1 hand2
    exact list_eq_iff_head_tail _ _

theorem C1_witness :
    ValidHand5 [⟨14, 2⟩, ⟨13, 2⟩, ⟨12, 2⟩, ⟨11, 2⟩, ⟨10, 2⟩] ∧
      eval5 [⟨14, 2⟩, ⟨13, 2⟩, ⟨12, 2⟩, ⟨11, 2⟩, ⟨10, 2⟩]
        = specRank [⟨14, 2⟩, ⟨13, 2⟩, ⟨12, 2⟩, ⟨11, 2⟩, ⟨10, 2⟩] :=
  ⟨by decide, C1_eval5_canonical_law.1 _ (by decide)⟩

/-- C8: the mixed-suit wheel A-2-3-4-5 classifies as a straight (category 4)
with high card 5, and its rank compares strictly below the mixed-suit
straight 6-7-8-9-T (category 4, high card 10). -/
theorem C8_wheel_straight :
    eval5 [⟨14, 3⟩, ⟨2, 1⟩, ⟨3, 0⟩, ⟨4, 2⟩, ⟨5, 3⟩] = [4, 5] ∧
    eval5 [⟨6, 0⟩, ⟨7, 1⟩, ⟨8, 2⟩, ⟨9, 3⟩, ⟨10, 1⟩] = [4, 10] ∧
    tupLt (eval5 [⟨14, 3⟩, ⟨2, 1⟩, ⟨3, 0⟩, ⟨4, 2⟩, ⟨5, 3⟩])
      (eval5 [⟨6, 0⟩, ⟨7, 1⟩, ⟨8, 2⟩, ⟨9, 3⟩, ⟨10, 1⟩]) = true := by
  refine ⟨?_, ?_, ?_⟩ <;> decide

/-! ### The best-hand search -/

theorem runBest_cons (first a : HandRank) (t : List HandRank) :
    runBest first (a :: t) = runBest (if tupLt first a then a else first) t := rfl

theorem runBest_mem : ∀ (rest : List HandRank) (first : HandRank),
    runBest first rest = first ∨ runBest first rest ∈ rest
  | [], _ => Or.inl rfl
  | a :: t, first => by
    rw [runBest_cons]
    rcases runBest_mem t (if tupLt first a then a else first) with h | h
    · rw [h]
      split
      · exact Or.inr (by simp)
      · exact Or.inl rfl
    · exact Or.inr (List.mem_cons_of_mem a h)

theorem runBest_not_lt : ∀ (rest : List HandRank) (first : HandRank),
    tupLt (runBest first rest) first = false ∧
      ∀ x ∈ rest, tupLt (runBest first rest) x = false
  | [], first => ⟨tupLt_irrefl first, by simp⟩
  | a :: t, first => by
    rw [runBest_cons]
    obtain ⟨h1, h2⟩ := runBest_not_lt t (if tupLt first a then a else first)
    have hacc_first : tupLt (if tupLt first a then a else first) first = false := by
      split
      · next hfa => exact tupLt_asymm _ _ hfa
      · exact tupLt_irrefl first
    have hacc_a : tupLt (if tupLt first a then a else first) a = false := by
      split
      · exact tupLt_irrefl a
      · next hfa => simpa using hfa
    refine ⟨tupLt_ge_trans _ _ _ h1 hacc_first, ?_⟩
    intro x hx
    rcases List.mem_cons.mp hx with rfl | hmem
    · exact tupLt_ge_trans _ _ _ h1 hacc_a
    · exact h2 x hmem

/-- C2: for 5 to 8 cards, `eval7` returns exactly the maximum of `eval5` over
all 5-card subsets under the full tuple comparison (it is the value of some
5-card subset, and no 5-card subset beats it); for at most 5 cards it is a
direct call to the 5-card classifier. -/
theorem C2_eval7_best_subset :
    (∀ cards : List Card, 5 ≤ cards.length → cards.length ≤ 8 →
      (∃ s, s.Sublist cards ∧ s.length = 5 ∧ eval7 cards = eval5 s) ∧
      (∀ s, s.Sublist cards → s.length = 5 →
        tupLt (eval7 cards) (eval5 s) = false)) ∧
    (∀ cards : List Card, cards.length ≤ 5 → eval7 cards = eval5 cards) := by
  constructor
  · intro cards h5 _h8
    by_cases hle : cards.length ≤ 5
    · have h5eq : cards.length = 5 := le_antisymm hle h5
      unfold eval7
      rw [if_pos hle]
      constructor
      · exact ⟨cards, List.Sublist.refl cards, h5eq, rfl⟩
      · intro s hs hslen
        have hseq : s = cards := hs.eq_of_length (by rw [hslen, h5eq])
        rw [hseq, tupLt_irrefl]
    · have hne : (cards.sublistsLen 5).map eval5 ≠ [] := by
        intro hemp
        have hlen0 := congrArg List.length hemp
        rw [List.length_map, List.length_sublistsLen] at hlen0
        have hpos := Nat.choose_pos (n := cards.length) (k := 5) (by omega)
        simp at hlen0
        omega
      rcases hm : (cards.sublistsLen 5).map eval5 with _ | ⟨s0, rest⟩
      · exact absurd hm hne
      · have heval : eval7 cards = runBest s0 rest := by
          unfold eval7
          rw [if_neg hle, hm]
        constructor
        · rcases runBest_mem rest s0 with h | h
          · have hs0 : s0 ∈ (cards.sublistsLen 5).map eval5 := by
              rw [hm]
              simp
            obtain ⟨s, hsmem, hseq⟩ := List.mem_map.mp hs0
            obtain ⟨hsub, hslen⟩ := List.mem_sublistsLen.mp hsmem
            exact ⟨s, hsub, hslen, by rw [heval, h, ← hseq]⟩
          · have hrb : runBest s0 rest ∈ (cards.sublistsLen 5).map eval5 := by
              rw [hm]
              exact List.mem_cons_of_mem _ h
            obtain ⟨s, hsmem, hseq⟩ := List.mem_map.mp hrb
            obtain ⟨hsub, hslen⟩ := List.mem_sublistsLen.mp hsmem
            exact ⟨s, hsub, hslen, by rw [heval, ← hseq]⟩
        · intro s hs hslen
          have hsmem : eval5 s ∈ (cards.sublistsLen 5).map eval5 :=
            List.mem_map.mpr ⟨s, List.mem_sublistsLen.mpr ⟨hs, hslen⟩, rfl⟩
          rw [hm] at hsmem
          obtain ⟨hnl1, hnl2⟩ := runBest_not_lt rest s0
          rcases List.mem_cons.mp hsmem with heq2 | hmem2
          · rw [heval, heq2]
            exact hnl1
          · rw [heval]
            exact hnl2 _ hmem2
  · intro cards hle
    unfold eval7
    rw [if_pos hle]

theorem C2_witness :
    5 ≤ ([⟨14, 0⟩, ⟨13, 1⟩, ⟨12, 2⟩, ⟨11, 3⟩, ⟨10, 0⟩, ⟨2, 1⟩] : List Card).length ∧
    ([⟨14, 0⟩, ⟨13, 1⟩, ⟨12, 2⟩, ⟨11, 3⟩, ⟨10, 0⟩, ⟨2, 1⟩] : List Card).length ≤ 8 ∧
    ((∃ s, s.Sublist [⟨14, 0⟩, ⟨13, 1⟩, ⟨12, 2⟩, ⟨11, 3⟩, ⟨10, 0⟩, ⟨2, 1⟩] ∧ s.length = 5 ∧
        eval7 [⟨14, 0⟩, ⟨13, 1⟩, ⟨12, 2⟩, ⟨11, 3⟩, ⟨10, 0⟩, ⟨2, 1⟩] = eval5 s) ∧
      (∀ s, s.Sublist [⟨14, 0⟩, ⟨13, 1⟩, ⟨12, 2⟩, ⟨11, 3⟩, ⟨10, 0⟩, ⟨2, 1⟩] → s.length = 5 →
        tupLt (eval7 [⟨14, 0⟩, ⟨13, 1⟩, ⟨12, 2⟩, ⟨11, 3⟩, ⟨10, 0⟩, ⟨2, 1⟩]) (eval5 s) = false)) :=
  ⟨by decide, by decide, C2_eval7_best_subset.1 _ (by decide) (by decide)⟩

/-! ### The opponent-reduction heuristic -/

/-- C7: for a 3-card hand and a board of at most 6 cards, the retention chosen
by `best_two_from_three` is one of the three 2-card retentions, and its
`eval7` value combined with the current board is not beaten by any of the
three retentions. -/
theorem C7_best_two_argmax (cards3 board : List Card) (h3 : cards3.length = 3)
    (hb : board.length ≤ 6) :
    (best_two_from_three cards3 board = [cards3.getD 1 default, cards3.getD 2 default] ∨
      best_two_from_three cards3 board = [cards3.getD 0 default, cards3.getD 2 default] ∨
      best_two_from_three cards3 board = [cards3.getD 0 default, cards3.getD 1 default]) ∧
    (∀ keep ∈ [[cards3.getD 1 default, cards3.getD 2 default],
        [cards3.getD 0 default, cards3.getD 2 default],
        [cards3.getD 0 default, cards3.getD 1 default]],
      tupLt (eval7 (best_two_from_three cards3 board ++ board))
        (eval7 (keep ++ board)) = false) := by
  simp only [best_two_from_three, List.mem_cons, List.not_mem_nil, or_false,
    forall_eq_or_imp, forall_eq]
  split_ifs with hc1 hc2 hc3 <;>
    simp only [Bool.not_eq_true] at *
  · refine ⟨by tauto, ?_, ?_, ?_⟩
    · exact tupLt_asymm _ _ (tupLt_trans _ _ _ hc1 hc2)
    · exact tupLt_asymm _ _ hc2
    · exact tupLt_irrefl _
  · refine ⟨by tauto, ?_, ?_, ?_⟩
    · exact tupLt_asymm _ _ hc1
    · exact tupLt_irrefl _
    · exact hc2
  · refine ⟨by tauto, ?_, ?_, ?_⟩
    · exact tupLt_asymm _ _ hc3
    · exact tupLt_ge_trans _ _ _ (tupLt_asymm _ _ hc3) hc1
    · exact tupLt_irrefl _
  · refine ⟨by tauto, ?_, ?_, ?_⟩
    · exact tupLt_irrefl _
    · exact hc1
    · exact hc3

theorem C7_witness :
    best_two_from_three [⟨14, 0⟩, ⟨13, 1⟩, ⟨2, 2⟩] []
        = [List.getD [⟨14, 0⟩, ⟨13, 1⟩, ⟨2, 2⟩] 1 default,
            List.getD [⟨14, 0⟩, ⟨13, 1⟩, ⟨2, 2⟩] 2 default] ∨
    best_two_from_three [⟨14, 0⟩, ⟨13, 1⟩, ⟨2, 2⟩] []
        = [List.getD [⟨14, 0⟩, ⟨13, 1⟩, ⟨2, 2⟩] 0 default,
            List.getD [⟨14, 0⟩, ⟨13, 1⟩, ⟨2, 2⟩] 2 default] ∨
    best_two_from_three [⟨14, 0⟩, ⟨13, 1⟩, ⟨2, 2⟩] []
        = [List.getD [⟨14, 0⟩, ⟨13, 1⟩, ⟨2, 2⟩] 0 default,
            List.getD [⟨14, 0⟩, ⟨13, 1⟩, ⟨2, 2⟩] 1 default] :=
  (C7_best_two_argmax [⟨14, 0⟩, ⟨13, 1⟩, ⟨2, 2⟩] [] (by decide) (by decide)).1

/-! ### The Monte Carlo simulator -/

theorem deck_after_shift (σ : Nat → List Card → List Card) (k : Nat) (deck : List Card) :
    ∀ i, deck_after σ (k + 1) (σ k deck) i = deck_after σ k deck (i + 1)
  | 0 => rfl
  | i + 1 => by
    show σ (k + 1 + i) (deck_after σ (k + 1) (σ k deck) i)
      = σ (k + (i + 1)) (deck_after σ k deck (i + 1))
    rw [deck_after_shift σ k deck i]
    congr 1
    omega

theorem scoreOf_cases (s1 s2 : HandRank) :
    scoreOf s1 s2 = 0 ∨ scoreOf s1 s2 = 1 / 2 ∨ scoreOf s1 s2 = 1 := by
  unfold scoreOf
  split_ifs
  · exact Or.inr (Or.inr rfl)
  · exact Or.inr (Or.inl rfl)
  · exact Or.inl rfl

theorem simIterScore_cases (deck my_cards board : List Card) :
    simIterScore deck my_cards board = 0 ∨ simIterScore deck my_cards board = 1 / 2 ∨
      simIterScore deck my_cards board = 1 := by
  simp only [simIterScore]
  exact scoreOf_cases _ _

theorem simIterScore_bounds (deck my_cards board : List Card) :
    0 ≤ simIterScore deck my_cards board ∧ simIterScore deck my_cards board ≤ 1 := by
  rcases simIterScore_cases deck my_cards board with h | h | h <;> rw [h] <;> norm_num

theorem simLoop_eq_sum (σ : Nat → List Card → List Card) (my_cards board : List Card) :
    ∀ (n k : Nat) (deck : List Card) (w : ℚ),
      simLoop σ my_cards board n k deck w =
        w + ∑ i ∈ Finset.range n,
          simIterScore (deck_after σ k deck (i + 1)) my_cards board := by
  intro n
  induction n with
  | zero =>
    intro k deck w
    simp [simLoop]
  | succ m ih =>
    intro k deck w
    show simLoop σ my_cards board m (k + 1) (σ k deck)
        (w + simIterScore (σ k deck) my_cards board) = _
    rw [ih (k + 1) (σ k deck) _]
    rw [Finset.sum_range_succ']
    simp only [deck_after_shift σ k deck]
    have h0 : deck_after σ k deck (0 + 1) = σ k deck := rfl
    rw [h0]
    ring

theorem equity_python_bounds (σ : Nat → List Card → List Card) (pos : Nat)
    (my_cards board : List Card) (iterations : Nat) :
    0 ≤ calculate_equity_python σ pos my_cards board iterations ∧
      calculate_equity_python σ pos my_cards board iterations ≤ 1 := by
  unfold calculate_equity_python
  rw [simLoop_eq_sum, zero_add]
  have h0 : 0 ≤ ∑ i ∈ Finset.range iterations,
      simIterScore (deck_after σ pos (unseen_deck my_cards board) (i + 1)) my_cards board :=
    Finset.sum_nonneg fun i _ => (simIterScore_bounds _ _ _).1
  have h1 : ∑ i ∈ Finset.range iterations,
      simIterScore (deck_after σ pos (unseen_deck my_cards board) (i + 1)) my_cards board
        ≤ (iterations : ℚ) := by
    calc ∑ i ∈ Finset.range iterations,
        simIterScore (deck_after σ pos (unseen_deck my_cards board) (i + 1)) my_cards board
        ≤ ∑ _i ∈ Finset.range iterations, (1 : ℚ) :=
          Finset.sum_le_sum fun i _ => (simIterScore_bounds _ _ _).2
      _ = (iterations : ℚ) := by simp
  rcases Nat.eq_zero_or_pos iterations with hz | hpos
  · subst hz
    simp
  · have hq : (0 : ℚ) < (iterations : ℚ) := by exact_mod_cast hpos
    constructor
    · exact div_nonneg h0 (le_of_lt hq)
    · rw [div_le_one hq]
      exact h1

/-- C3: the Monte Carlo estimate is the sum over the `n` iterations of the
per-iteration showdown score (each iteration seeing the deck after one more
shuffle of the previous iteration's deck), divided by `n`; every iteration
contributes exactly 0, 1/2 or 1 (loss, exact tie, strict win); and the
returned estimate always lies in [0, 1]. -/
theorem C3_equity_simulator (σ : Nat → List Card → List Card) (pos : Nat)
    (my_cards board : List Card) (n : Nat)
    (hmy : my_cards.length = 2 ∨ my_cards.length = 3) (hb : board.length ≤ 6)
    (hn : 1 ≤ n) :
    calculate_equity_python σ pos my_cards board n =
      (∑ i ∈ Finset.range n,
        simIterScore (deck_after σ pos (unseen_deck my_cards board) (i + 1)) my_cards board)
        / (n : ℚ) ∧
    (∀ i : Nat,
      simIterScore (deck_after σ pos (unseen_deck my_cards board) (i + 1)) my_cards board = 0 ∨
      simIterScore (deck_after σ pos (unseen_deck my_cards board) (i + 1)) my_cards board
          = 1 / 2 ∨
      simIterScore (deck_after σ pos (unseen_deck my_cards board) (i + 1)) my_cards board = 1) ∧
    0 ≤ calculate_equity_python σ pos my_cards board n ∧
    calculate_equity_python σ pos my_cards board n ≤ 1 := by
  refine ⟨?_, fun i => simIterScore_cases _ _ _,
    (equity_python_bounds σ pos my_cards board n).1,
    (equity_python_bounds σ pos my_cards board n).2⟩
  unfold calculate_equity_python
  rw [simLoop_eq_sum, zero_add]

theorem C3_witness :
    (([⟨14, 0⟩, ⟨14, 1⟩] : List Card).length = 2 ∨
      ([⟨14, 0⟩, ⟨14, 1⟩] : List Card).length = 3) ∧
    ([] : List Card).length ≤ 6 ∧ 1 ≤ 1 ∧
    (0 ≤ calculate_equity_python (fun _ deck => deck) 0 [⟨14, 0⟩, ⟨14, 1⟩] [] 1 ∧
      calculate_equity_python (fun _ deck => deck) 0 [⟨14, 0⟩, ⟨14, 1⟩] [] 1 ≤ 1) :=
  ⟨Or.inl rfl, by decide, le_refl 1,
    (C3_equity_simulator (fun _ deck => deck) 0 [⟨14, 0⟩, ⟨14, 1⟩] [] 1
      (Or.inl rfl) (by decide) (le_refl 1)).2.2⟩

/-! ### The equity cache -/

theorem listLookup_cons_self (k : EqKey) (v : ℚ) (rest : List (EqKey × ℚ)) :
    listLookup ((k, v) :: rest) k = some v := by
  simp [listLookup]

theorem listLookup_some_mem : ∀ (cache : List (EqKey × ℚ)) (key : EqKey) (v : ℚ),
    listLookup cache key = some v → (key, v) ∈ cache
  | [], _, _ => by simp [listLookup]
  | (k, w) :: rest, key, v => by
    simp only [listLookup]
    split_ifs with hk
    · intro h
      obtain rfl : w = v := by injection h
      subst hk
      exact List.mem_cons_self _ _
    · intro h
      exact List.mem_cons_of_mem _ (listLookup_some_mem rest key v h)

theorem sortCards_perm_eq (my1 my2 : List Card) (h : my1.Perm my2) :
    sortCards my1 = sortCards my2 := by
  apply List.eq_of_perm_of_sorted (r := cardTokenLE)
  · exact (List.perm_insertionSort _ _).trans (h.trans (List.perm_insertionSort _ _).symm)
  · exact List.sorted_insertionSort _ _
  · exact List.sorted_insertionSort _ _

theorem calculate_equity_hit (st : BotState) (my_cards board : List Card)
    (street iters : Nat) (v : ℚ)
    (h : listLookup st.eq_cache (equity_key my_cards board street iters) = some v) :
    calculate_equity st my_cards board street iters = (v, st) := by
  simp only [calculate_equity]
  rw [h]

theorem calculate_equity_miss (st : BotState) (my_cards board : List Card)
    (street iters : Nat)
    (h : listLookup st.eq_cache (equity_key my_cards board street iters) = none) :
    calculate_equity st my_cards board street iters =
      (calculate_equity_python st.shuffles st.pos my_cards board (it_bucket iters),
        { st with pos := st.pos + it_bucket iters,
                  eq_cache := (equity_key my_cards board street iters,
                    calculate_equity_python st.shuffles st.pos my_cards board (it_bucket iters))
                      :: st.eq_cache,
                  sims := st.sims + 1 }) := by
  simp only [calculate_equity]
  rw [h]

theorem calculate_equity_second (st : BotState) (my1 b1 : List Card) (s1 i1 : Nat)
    (my2 b2 : List Card) (s2 i2 : Nat)
    (hkey : equity_key my2 b2 s2 i2 = equity_key my1 b1 s1 i1) :
    calculate_equity (calculate_equity st my1 b1 s1 i1).2 my2 b2 s2 i2
      = ((calculate_equity st my1 b1 s1 i1).1, (calculate_equity st my1 b1 s1 i1).2) := by
  cases hl : listLookup st.eq_cache (equity_key my1 b1 s1 i1) with
  | some v =>
    rw [calculate_equity_hit st my1 b1 s1 i1 v hl]
    exact calculate_equity_hit st my2 b2 s2 i2 v (by rw [hkey]; exact hl)
  | none =>
    rw [calculate_equity_miss st my1 b1 s1 i1 hl]
    apply calculate_equity_hit
    rw [hkey]
    exact listLookup_cons_self _ _ _

theorem calculate_equity_wf (st : BotState) (my_cards board : List Card)
    (street iters : Nat) (hwf : CacheWF st) :
    0 ≤ (calculate_equity st my_cards board street iters).1 ∧
      (calculate_equity st my_cards board street iters).1 ≤ 1 ∧
      CacheWF (calculate_equity st my_cards board street iters).2 := by
  cases hl : listLookup st.eq_cache (equity_key my_cards board street iters) with
  | some v =>
    rw [calculate_equity_hit st my_cards board street iters v hl]
    have hv := hwf _ (listLookup_some_mem _ _ _ hl)
    exact ⟨hv.1, hv.2, hwf⟩
  | none =>
    rw [calculate_equity_miss st my_cards board street iters hl]
    refine ⟨(equity_python_bounds _ _ _ _ _).1, (equity_python_bounds _ _ _ _ _).2, ?_⟩
    intro kv hkv
    rcases List.mem_cons.mp hkv with rfl | hmem
    · exact ⟨(equity_python_bounds _ _ _ _ _).1, (equity_python_bounds _ _ _ _ _).2⟩
    · exact hwf kv hmem

theorem full_deck_nodup : full_deck.Nodup := by decide

/-- C10: the stage argument is never passed to the simulator — two cache-miss
queries from the same state (same rng position and shuffle outcomes) that
differ only in the stage compute equal estimates. -/
theorem C10_stage_noninterference (st : BotState) (my_cards board : List Card)
    (s1 s2 iters : Nat)
    (h1 : listLookup st.eq_cache (equity_key my_cards board s1 iters) = none)
    (h2 : listLookup st.eq_cache (equity_key my_cards board s2 iters) = none) :
    (calculate_equity st my_cards board s1 iters).1
      = (calculate_equity st my_cards board s2 iters).1 := by
  rw [calculate_equity_miss st my_cards board s1 iters h1,
    calculate_equity_miss st my_cards board s2 iters h2]

theorem C10_witness :
    listLookup (BotState.mk (fun _ deck => deck) 0 [] 0).eq_cache
        (equity_key [⟨14, 0⟩, ⟨14, 1⟩] [] 0 50) = none ∧
    listLookup (BotState.mk (fun _ deck => deck) 0 [] 0).eq_cache
        (equity_key [⟨14, 0⟩, ⟨14, 1⟩] [] 3 50) = none ∧
    (calculate_equity (BotState.mk (fun _ deck => deck) 0 [] 0)
        [⟨14, 0⟩, ⟨14, 1⟩] [] 0 50).1
      = (calculate_equity (BotState.mk (fun _ deck => deck) 0 [] 0)
          [⟨14, 0⟩, ⟨14, 1⟩] [] 3 50).1 :=
  ⟨rfl, rfl,
    C10_stage_noninterference (BotState.mk (fun _ deck => deck) 0 [] 0)
      [⟨14, 0⟩, ⟨14, 1⟩] [] 0 3 50 rfl rfl⟩

/-- C6: the requested iteration count is discretized into the four buckets
40/60/90/120 with requests of 41-45 iterations sharing the bucket of a
40-iteration request; a cache miss invokes the simulator with the bucket's
canonical count, stores the result under the canonical key and increments
the simulator-invocation counter; and any later query whose canonicalized
key matches a served query returns the stored estimate bit-for-bit with the
state (in particular the invocation counter) unchanged. -/
theorem C6_bucket_and_cache :
    (∀ i : Nat, 41 ≤ i → i ≤ 45 → it_bucket i = it_bucket 40) ∧
    (∀ i : Nat, it_bucket i = 40 ∨ it_bucket i = 60 ∨ it_bucket i = 90 ∨
      it_bucket i = 120) ∧
    (∀ (st : BotState) (my_cards board : List Card) (street i : Nat),
      listLookup st.eq_cache (equity_key my_cards board street i) = none →
        (calculate_equity st my_cards board street i).1
            = calculate_equity_python st.shuffles st.pos my_cards board (it_bucket i) ∧
          listLookup (calculate_equity st my_cards board street i).2.eq_cache
              (equity_key my_cards board street i)
            = some (calculate_equity st my_cards board street i).1 ∧
          (calculate_equity st my_cards board street i).2.sims = st.sims + 1) ∧
    (∀ (st : BotState) (my1 b1 : List Card) (s1 i1 : Nat) (my2 b2 : List Card)
        (s2 i2 : Nat),
      equity_key my2 b2 s2 i2 = equity_key my1 b1 s1 i1 →
        calculate_equity (calculate_equity st my1 b1 s1 i1).2 my2 b2 s2 i2
          = ((calculate_equity st my1 b1 s1 i1).1,
              (calculate_equity st my1 b1 s1 i1).2)) := by
  refine ⟨?_, ?_, ?_, calculate_equity_second⟩
  · intro i h1 h2
    unfold it_bucket
    rw [if_pos (show i ≤ 45 by omega)]
    rfl
  · intro i
    unfold it_bucket
    split_ifs <;> simp
  · intro st my_cards board street i h
    rw [calculate_equity_miss st my_cards board street i h]
    exact ⟨rfl, listLookup_cons_self _ _ _, rfl⟩

theorem C6_witness :
    41 ≤ 41 ∧ 41 ≤ 45 ∧ it_bucket 41 = it_bucket 40 ∧
    (calculate_equity (BotState.mk (fun _ deck => deck) 0 [] 0)
        [⟨14, 0⟩, ⟨14, 1⟩] [] 0 50).2.sims = 0 + 1 :=
  ⟨le_refl 41, by norm_num, C6_bucket_and_cache.1 41 (le_refl 41) (by norm_num),
    (C6_bucket_and_cache.2.2.1 (BotState.mk (fun _ deck => deck) 0 [] 0)
      [⟨14, 0⟩, ⟨14, 1⟩] [] 0 50 rfl).2.2⟩

/-- C4 (amended): the cache key canonicalizes the order of the own cards —
any permutation of `my_cards` yields the same key, so the permuted second
query is a hit on the first query's entry — but the board is kept in its
given order in the key, so queries differing in board order do not share a
key (see the counterexample). -/
theorem C4_own_order_canonical (st : BotState) (my1 my2 board : List Card)
    (street iters : Nat) (hperm : my1.Perm my2) :
    equity_key my2 board street iters = equity_key my1 board street iters ∧
    calculate_equity (calculate_equity st my1 board street iters).2 my2 board street iters
      = ((calculate_equity st my1 board street iters).1,
          (calculate_equity st my1 board street iters).2) := by
  have hk : equity_key my2 board street iters = equity_key my1 board street iters := by
    unfold equity_key
    rw [sortCards_perm_eq my2 my1 hperm.symm]
  exact ⟨hk, calculate_equity_second st my1 board street iters my2 board street iters hk⟩

/-- C4 counterexample: two equity queries that differ only in the listed
order of the board cards produce different cache keys — the board is not
canonicalized. -/
theorem C4_counterexample :
    equity_key [⟨14, 0⟩] [⟨2, 0⟩, ⟨3, 1⟩] 1 50
      ≠ equity_key [⟨14, 0⟩] [⟨3, 1⟩, ⟨2, 0⟩] 1 50 := by
  decide

theorem C4_witness :
    equity_key [⟨13, 1⟩, ⟨14, 0⟩] [] 0 50 = equity_key [⟨14, 0⟩, ⟨13, 1⟩] [] 0 50 :=
  (C4_own_order_canonical (BotState.mk (fun _ deck => deck) 0 [] 0)
    [⟨14, 0⟩, ⟨13, 1⟩] [⟨13, 1⟩, ⟨14, 0⟩] [] 0 50
    (List.Perm.swap (⟨13, 1⟩ : Card) (⟨14, 0⟩ : Card) [])).1

/-- C9 (amended): `calculate_equity` performs no duplicate-card validation:
a call whose private cards and board share a card is not rejected — the
duplicated card is merely excluded (once) from the unseen deck and the call
returns an ordinary equity estimate in [0, 1]; the unseen deck itself never
contains a card of the hand or the board and holds no duplicates. -/
theorem C9_no_duplicate_validation (st : BotState) (my_cards board : List Card)
    (street iters : Nat) (hdup : ¬ (my_cards ++ board).Nodup) (hwf : CacheWF st) :
    (0 ≤ (calculate_equity st my_cards board street iters).1 ∧
      (calculate_equity st my_cards board street iters).1 ≤ 1) ∧
    (∀ cd ∈ unseen_deck my_cards board, cd ∉ my_cards ∧ cd ∉ board) ∧
    (unseen_deck my_cards board).Nodup := by
  refine ⟨⟨(calculate_equity_wf st my_cards board street iters hwf).1,
    (calculate_equity_wf st my_cards board street iters hwf).2.1⟩, ?_, ?_⟩
  · intro cd hcd
    have hmf := List.of_mem_filter hcd
    have h2 : cd ∉ my_cards ++ board := of_decide_eq_true hmf
    rw [List.mem_append] at h2
    push_neg at h2
    exact h2
  · exact full_deck_nodup.filter _

/-- C9 counterexample: a concrete call whose hand and board share the ace of
spades is not rejected: it returns an equity estimate in [0, 1] instead of
failing. -/
theorem C9_counterexample :
    ¬ (([⟨14, 3⟩, ⟨13, 3⟩] ++ [⟨14, 3⟩] : List Card)).Nodup ∧
    0 ≤ (calculate_equity (BotState.mk (fun _ deck => deck) 0 [] 0)
        [⟨14, 3⟩, ⟨13, 3⟩] [⟨14, 3⟩] 1 50).1 ∧
    (calculate_equity (BotState.mk (fun _ deck => deck) 0 [] 0)
        [⟨14, 3⟩, ⟨13, 3⟩] [⟨14, 3⟩] 1 50).1 ≤ 1 :=
  ⟨by decide,
    (calculate_equity_wf (BotState.mk (fun _ deck => deck) 0 [] 0)
      [⟨14, 3⟩, ⟨13, 3⟩] [⟨14, 3⟩] 1 50
      (fun kv hkv => (List.not_mem_nil kv hkv).elim)).1,
    (calculate_equity_wf (BotState.mk (fun _ deck => deck) 0 [] 0)
      [⟨14, 3⟩, ⟨13, 3⟩] [⟨14, 3⟩] 1 50
      (fun kv hkv => (List.not_mem_nil kv hkv).elim)).2.1⟩

theorem C9_witness :
    ¬ (([⟨14, 3⟩, ⟨13, 3⟩] ++ [⟨14, 3⟩] : List Card)).Nodup ∧
    CacheWF (BotState.mk (fun _ deck => deck) 0 [] 0) ∧
    ((0 ≤ (calculate_equity (BotState.mk (fun _ deck => deck) 0 [] 0)
        [⟨14, 3⟩, ⟨13, 3⟩] [⟨14, 3⟩] 1 50).1 ∧
      (calculate_equity (BotState.mk (fun _ deck => deck) 0 [] 0)
        [⟨14, 3⟩, ⟨13, 3⟩] [⟨14, 3⟩] 1 50).1 ≤ 1)) :=
  ⟨by decide, fun kv hkv => (List.not_mem_nil kv hkv).elim,
    (C9_no_duplicate_validation (BotState.mk (fun _ deck => deck) 0 [] 0)
      [⟨14, 3⟩, ⟨13, 3⟩] [⟨14, 3⟩] 1 50 (by decide)
      (fun kv hkv => (List.not_mem_nil kv hkv).elim)).1⟩

/-! ### The discard selector -/

/-- C5: for exactly 3 private cards and a board of at most 6 cards, the
discard selector returns an index below 3; the equity it computed for that
index (through the cache, with the retained two cards against the board
extended by the discarded card, at stage 1 — see `discard_equities`) is at
least the equity of each other candidate, and every candidate of lower index
has strictly smaller equity (ties keep the lower index). -/
theorem C5_discard_argmax (st : BotState) (my_cards board : List Card)
    (h3 : my_cards.length = 3) (hb : board.length ≤ 6) (hwf : CacheWF st) :
    (get_best_discard st my_cards board).1 < 3 ∧
    (∀ j, j < 3 → nth3 (discard_equities st my_cards board) j
        ≤ nth3 (discard_equities st my_cards board) (get_best_discard st my_cards board).1) ∧
    (∀ j, j < (get_best_discard st my_cards board).1 →
      nth3 (discard_equities st my_cards board) j
        < nth3 (discard_equities st my_cards board) (get_best_discard st my_cards board).1) := by
  rcases h0 : calculate_equity st [my_cards.getD 1 default, my_cards.getD 2 default]
      (board ++ [my_cards.getD 0 default]) 1
      (if 2 ≤ board.length then 60 else 50) with ⟨e0, st1⟩
  have hwf0 := calculate_equity_wf st [my_cards.getD 1 default, my_cards.getD 2 default]
      (board ++ [my_cards.getD 0 default]) 1 (if 2 ≤ board.length then 60 else 50) hwf
  rw [h0] at hwf0
  obtain ⟨he0, he0u, hwf1⟩ := hwf0
  rcases h1 : calculate_equity st1 [my_cards.getD 0 default, my_cards.getD 2 default]
      (board ++ [my_cards.getD 1 default]) 1
      (if 2 ≤ board.length then 60 else 50) with ⟨e1, st2⟩
  have hwf1x := calculate_equity_wf st1 [my_cards.getD 0 default, my_cards.getD 2 default]
      (board ++ [my_cards.getD 1 default]) 1 (if 2 ≤ board.length then 60 else 50) hwf1
  rw [h1] at hwf1x
  obtain ⟨he1, he1u, hwf2⟩ := hwf1x
  rcases h2 : calculate_equity st2 [my_cards.getD 0 default, my_cards.getD 1 default]
      (board ++ [my_cards.getD 2 default]) 1
      (if 2 ≤ board.length then 60 else 50) with ⟨e2, st3⟩
  simp only [get_best_discard, discard_equities, h0, h1, h2]
  rw [if_pos (show (-1 : ℚ) < e0 by linarith)]
  by_cases hc1 : e0 < e1
  · rw [if_pos (show ((0 : Nat), e0).2 < e1 from hc1)]
    by_cases hc2 : e1 < e2
    · rw [if_pos (show ((1 : Nat), e1).2 < e2 from hc2)]
      refine ⟨by simp, ?_, ?_⟩
      · intro j hj
        interval_cases j <;> simp [nth3] <;> linarith
      · intro j hj
        simp only at hj
        interval_cases j <;> simp [nth3] <;> linarith
    · rw [if_neg (show ¬ ((1 : Nat), e1).2 < e2 from hc2)]
      refine ⟨by simp, ?_, ?_⟩
      · intro j hj
        interval_cases j <;> simp [nth3] <;> linarith
      · intro j hj
        simp only at hj
        interval_cases j <;> simp [nth3] <;> linarith
  · rw [if_neg (show ¬ ((0 : Nat), e0).2 < e1 from hc1)]
    by_cases hc2 : e0 < e2
    · rw [if_pos (show ((0 : Nat), e0).2 < e2 from hc2)]
      refine ⟨by simp, ?_, ?_⟩
      · intro j hj
        interval_cases j <;> simp [nth3] <;> linarith
      · intro j hj
        simp only at hj
        interval_cases j <;> simp [nth3] <;> linarith
    · rw [if_neg (show ¬ ((0 : Nat), e0).2 < e2 from hc2)]
      refine ⟨by simp, ?_, ?_⟩
      · intro j hj
        interval_cases j <;> simp [nth3] <;> linarith
      · intro j hj
        simp only at hj
        interval_cases j <;> simp [nth3] <;> linarith

theorem C5_witness :
    (get_best_discard (BotState.mk (fun _ deck => deck) 0 [] 0)
        [⟨14, 0⟩, ⟨13, 1⟩, ⟨2, 2⟩] []).1 < 3 :=
  (C5_discard_argmax (BotState.mk (fun _ deck => deck) 0 [] 0)
    [⟨14, 0⟩, ⟨13, 1⟩, ⟨2, 2⟩] [] (by decide) (by decide)
    (fun kv hkv => (List.not_mem_nil kv hkv).elim)).1
